import Mathlib

/-!
Shallow embedding of the `vv` vote-viewer tool (src/main.rs and src/vv.rs).

Modelling conventions:
* `Slot` and `Pubkey` are `Nat`; `Hash` is `Nat`; a signature is its
  rendered character string, modelled as `List Char`.
* Rust `HashMap`/`BTreeMap` values are association lists `List (Nat × α)`
  with unique keys; `aset` is `insert` (replace-or-append), `aremove` is
  `remove`, `alookup` is `get`, `acontains` is `contains_key`.
* `HashSet Slot` is a `List Nat` used only through membership.
* Loops that Rust runs until a size condition are given explicit fuel that
  provably suffices (each iteration removes one entry).
* The external `solana_vote_program::VoteState` is kept abstract where the
  repository treats it as a capability: `process_slot_vote_unchecked` and
  `process_vote_unchecked` are parameters (`sim`, `applyV`); the fields the
  repository reads (`votes`, `last_voted_slot`, derived from the lockout
  list exactly as the vote program derives them) are modelled concretely.
* A Rust `panic!` / failed `unwrap` / failed `assert!` is modelled as a
  distinguished result (`Option.none` or an explicit outcome constructor).
-/

/-! ### Generic association-list operations (HashMap / BTreeMap model) -/

/-- `HashMap::get` on an association list. -/
def alookup {α : Type} : List (Nat × α) → Nat → Option α
  | [], _ => none
  | q :: m, k => if q.1 = k then some q.2 else alookup m k

/-- `HashMap::contains_key`. -/
def acontains {α : Type} (m : List (Nat × α)) (k : Nat) : Bool :=
  m.any (fun q => q.1 == k)

/-- `HashMap::insert` (replace an existing key or append a fresh one). -/
def aset {α : Type} : List (Nat × α) → Nat → α → List (Nat × α)
  | [], k, v => [(k, v)]
  | q :: m, k, v => if q.1 = k then (k, v) :: m else q :: aset m k v

/-- `HashMap::remove` (keys are unique, so removing every match is `remove`). -/
def aremove {α : Type} (m : List (Nat × α)) (k : Nat) : List (Nat × α) :=
  m.filter (fun q => !(q.1 == k))

/-- `Iterator::min` over a list of naturals. -/
def listMin? : List Nat → Option Nat
  | [] => none
  | a :: l =>
    some (match listMin? l with
          | none => a
          | some b => min a b)

/-- `Iterator::max` over a list of naturals. -/
def listMax? : List Nat → Option Nat
  | [] => none
  | a :: l =>
    some (match listMax? l with
          | none => a
          | some b => max a b)

/-- `slot_parents.keys().min()`, with a default for the (guarded) empty case. -/
def minKey {α : Type} (m : List (Nat × α)) : Nat :=
  (listMin? (m.map Prod.fst)).getD 0

/-- `slot_parents.keys().max()`, with a default for the (guarded) empty case. -/
def maxKey {α : Type} (m : List (Nat × α)) : Nat :=
  (listMax? (m.map Prod.fst)).getD 0

/-! ### src/main.rs: tower state and the live vote path -/

/-- One entry of the external vote tower's lockout stack. -/
structure Lockout where
  slot : Nat
  confirmation_count : Nat
deriving DecidableEq

/-- The fields of the external `VoteState` that src/main.rs reads. -/
structure VoteState where
  votes : List Lockout
deriving DecidableEq

/-- `VoteState::last_voted_slot`: the slot of the newest lockout, as the vote
program derives it from the stack. -/
def VoteState.last_voted_slot (vs : VoteState) : Option Nat :=
  vs.votes.getLast?.map (fun l => l.slot)

/-- A vote notification body (`solana_vote_program::vote_state::Vote`). -/
structure Vote where
  slots : List Nat
  hash : Nat
  timestamp : Option Int
deriving DecidableEq

/-- src/main.rs `is_recent`: a slot is recent if it is newer than the last
vote recorded in the tower. -/
def is_recent (vote_state : VoteState) (slot : Nat) : Bool :=
  match vote_state.last_voted_slot with
  | some last_voted_slot => if slot ≤ last_voted_slot then false else true
  | none => true

/-- src/main.rs `is_locked_out`: simulate a vote for `slot` on a copy of the
tower (`sim` is the external `process_slot_vote_unchecked`); locked out iff
some remaining lockout slot other than `slot` is not among `ancestors`. -/
def is_locked_out (sim : VoteState → Nat → VoteState) (vote_state : VoteState)
    (slot : Nat) (ancestors : List Nat) : Bool :=
  let vote_state2 := sim vote_state slot
  vote_state2.votes.any (fun v => !(slot == v.slot) && !(ancestors.contains v.slot))

/-- src/main.rs `build_ancestors` parent walk, with fuel.  On the acyclic
maps the stream produces the walk visits distinct keys, so fuel equal to the
map size suffices; on a cyclic map the Rust loop would not terminate. -/
def build_ancestors_fuel : Nat → Nat → List (Nat × Nat) → List Nat
  | 0, _, _ => []
  | fuel + 1, slot, slot_parents =>
    match alookup slot_parents slot with
    | some parent => parent :: build_ancestors_fuel fuel parent slot_parents
    | none => []

/-- src/main.rs `build_ancestors`: all slots reachable by parent links. -/
def build_ancestors (slot : Nat) (slot_parents : List (Nat × Nat)) : List Nat :=
  build_ancestors_fuel slot_parents.length slot slot_parents

/-- The eviction loop of `process_votes`: repeatedly remove the lowest child
key while the map holds 1000 or more entries; returns the evicted map and the
lowest key seen at exit.  Fuel equal to the map size suffices, since each
iteration removes exactly one entry. -/
def evictFuel : Nat → List (Nat × Nat) → List (Nat × Nat) × Nat
  | 0, m => (m, minKey m)
  | fuel + 1, m =>
    let lowest := minKey m
    if m.length < 1000 then (m, lowest) else evictFuel fuel (aremove m lowest)

/-- The eviction step applied to a `slot_parents` map. -/
def evictAncestry (m : List (Nat × Nat)) : List (Nat × Nat) :=
  (evictFuel m.length m).1

/-- The `lowest_slot` value the eviction loop breaks with. -/
def evictAncestryLowest (m : List (Nat × Nat)) : Nat :=
  (evictFuel m.length m).2

/-- What `process_votes` does with one buffered `(pubkey, vote)` entry. -/
inductive VoteOutcome where
  | skippedTowerShallow (lowest_vote_state_slot : Nat)
  | skippedVoteShallow (lowest_vote_slot : Nat)
  | panickedEmptySlots
  | notRecent
  | panickedLockedOut (slot : Nat)
  | applied
deriving DecidableEq

/-- Tail of the per-vote body: `let highest_vote_slot = *vote.slots.last().unwrap()`
followed by the `is_recent` / `is_locked_out` / `process_vote_unchecked`
cascade (src/main.rs lines 166-182).  The failed `unwrap` on an empty slot
list is the `panickedEmptySlots` outcome. -/
def processOneVoteCheck (sim : VoteState → Nat → VoteState) (applyV : VoteState → Vote → VoteState)
    (slot_parents : List (Nat × Nat)) (vote_state : VoteState) (vote : Vote) :
    VoteState × VoteOutcome :=
  match vote.slots.getLast? with
  | none => (vote_state, VoteOutcome.panickedEmptySlots)
  | some highest_vote_slot =>
    if is_recent vote_state highest_vote_slot then
      let ancestors := build_ancestors highest_vote_slot slot_parents
      if is_locked_out sim vote_state highest_vote_slot ancestors then
        (vote_state, VoteOutcome.panickedLockedOut highest_vote_slot)
      else
        (applyV vote_state vote, VoteOutcome.applied)
    else (vote_state, VoteOutcome.notRecent)

/-- Middle of the per-vote body: the `vote.slots.first()` shallow-ancestry
check (src/main.rs lines 156-164). -/
def processOneVoteRest (sim : VoteState → Nat → VoteState) (applyV : VoteState → Vote → VoteState)
    (slot_parents : List (Nat × Nat)) (vote_state : VoteState) (vote : Vote) :
    VoteState × VoteOutcome :=
  match vote.slots.head? with
  | some lowest_vote_slot =>
    if !(acontains slot_parents lowest_vote_slot) then
      (vote_state, VoteOutcome.skippedVoteShallow lowest_vote_slot)
    else processOneVoteCheck sim applyV slot_parents vote_state vote
  | none => processOneVoteCheck sim applyV slot_parents vote_state vote

/-- The per-vote body of the `process_votes` drain loop (src/main.rs
lines 140-183).  `sim` is the external `process_slot_vote_unchecked`,
`applyV` the external `process_vote_unchecked`.  Returns the new tower state
and what happened. -/
def processOneVote (sim : VoteState → Nat → VoteState) (applyV : VoteState → Vote → VoteState)
    (slot_parents : List (Nat × Nat)) (vote_state : VoteState) (vote : Vote) :
    VoteState × VoteOutcome :=
  match listMin? (vote_state.votes.map (fun l => l.slot)) with
  | some lowest_vote_state_slot =>
    if !(acontains slot_parents lowest_vote_state_slot) then
      (vote_state, VoteOutcome.skippedTowerShallow lowest_vote_state_slot)
    else processOneVoteRest sim applyV slot_parents vote_state vote
  | none => processOneVoteRest sim applyV slot_parents vote_state vote

/-- Stable ascending sort on naturals (`sort_unstable` on distinct keys and
the ascending `sort` of vote slots agree with any correct sort). -/
def sortNatAsc (l : List Nat) : List Nat :=
  List.insertionSort (fun a b => a ≤ b) l

/-- Drain one bucket of buffered `(pubkey, vote)` entries in arrival order:
`vote_states.entry(pk).or_default()`, then the per-vote body, writing the
resulting tower back.  Also returns the outcome log. -/
def processBucket (sim : VoteState → Nat → VoteState) (applyV : VoteState → Vote → VoteState)
    (slot_parents : List (Nat × Nat)) (vote_states : List (Nat × VoteState))
    (votes : List (Nat × Vote)) : List (Nat × VoteState) × List (Nat × VoteOutcome) :=
  votes.foldl
    (fun acc pv =>
      let cur := (alookup acc.1 pv.1).getD { votes := [] }
      let r := processOneVote sim applyV slot_parents cur pv.2
      (aset acc.1 pv.1 r.1, acc.2 ++ [(pv.1, r.2)]))
    (vote_states, [])

/-- The mutable state of the `process_votes` select loop. -/
structure LiveState where
  votes_by_slot : List (Nat × List (Nat × Vote))
  slot_parents : List (Nat × Nat)
  vote_states : List (Nat × VoteState)
deriving DecidableEq

/-- Ancestry map after the eviction step of a maintenance pass. -/
def evictedAncestry (st : LiveState) : List (Nat × Nat) :=
  evictAncestry st.slot_parents

/-- The `lowest_slot` the eviction loop of a maintenance pass breaks with. -/
def evictLowest (st : LiveState) : Nat :=
  evictAncestryLowest st.slot_parents

/-- `slot_parents.keys().max().unwrap()` after eviction. -/
def ancestryHighest (st : LiveState) : Nat :=
  maxKey (evictedAncestry st)

/-- One step of the drain loop over resolved bucket keys:
`votes_by_slot.remove(&slot).unwrap()` then process the bucket. -/
def drainStep (sim : VoteState → Nat → VoteState) (applyV : VoteState → Vote → VoteState)
    (slot_parents : List (Nat × Nat))
    (acc : List (Nat × List (Nat × Vote)) × List (Nat × VoteState) × List (Nat × VoteOutcome))
    (slot : Nat) :
    List (Nat × List (Nat × Vote)) × List (Nat × VoteState) × List (Nat × VoteOutcome) :=
  let bucket := (alookup acc.1 slot).getD []
  let r := processBucket sim applyV slot_parents acc.2.1 bucket
  (aremove acc.1 slot, r.1, acc.2.2 ++ r.2)

/-- The maintenance pass run after each select event (src/main.rs
lines 98-184): skip while ancestry is empty; evict; drop buckets keyed below
the lowest ancestry slot; collect buffered keys at or below the highest
ancestry slot, sort ascending, and drain each bucket in order. -/
def maintenancePass (sim : VoteState → Nat → VoteState) (applyV : VoteState → Vote → VoteState)
    (st : LiveState) : LiveState × List (Nat × VoteOutcome) :=
  if st.slot_parents = [] then (st, [])
  else
    let sp := evictedAncestry st
    let lowest := evictLowest st
    let vbs := st.votes_by_slot.filter (fun b => decide (lowest ≤ b.1))
    let highest := ancestryHighest st
    let slots := sortNatAsc ((vbs.map Prod.fst).filter (fun s => decide (s ≤ highest)))
    let r := slots.foldl (drainStep sim applyV sp) (vbs, st.vote_states, [])
    ({ votes_by_slot := r.1, slot_parents := sp, vote_states := r.2.1 }, r.2.2)

/-- Insert `n` distinct ancestry edges: child slots `0, 1, ..., n-1`
(parent slot 0 throughout; eviction only looks at child keys), through the
same `HashMap::insert` the slot-notification arm uses. -/
def buildEdges (n : Nat) : List (Nat × Nat) :=
  (List.range n).foldl (fun m c => aset m c 0) []

/-! ### src/vv.rs: vote-span extraction and the landing table -/

/-- One historical vote transaction (src/vv.rs `VoteMeta`), field for field. -/
structure VoteMeta where
  signature : List Char
  success : Bool
  vote_slots : List Nat
  landed_slot : Nat
deriving DecidableEq

/-- Cell kind in the landing table (src/vv.rs `TableEntryKind`). -/
inductive TableEntryKind where
  | Space
  | Vote
  | VoteGap
  | Waiting
  | Landed
deriving DecidableEq

/-- One table cell (src/vv.rs `TableEntry`). -/
structure TableEntry where
  kind : TableEntryKind
  vote_meta : VoteMeta
deriving DecidableEq

/-- `TableEntry::default()`: kind `Space`, default meta.  Rendering never
reads the meta of a `Space` cell. -/
def defaultTableEntry : TableEntry :=
  { kind := TableEntryKind.Space,
    vote_meta := { signature := [], success := false, vote_slots := [], landed_slot := 0 } }

/-- `vote_meta.vote_slots[0]` (slots are non-empty for every pushed meta). -/
def first_vote_slot (m : VoteMeta) : Nat := m.vote_slots.headD 0

/-- `*vote_meta.vote_slots.last().unwrap()`. -/
def last_vote_slot (m : VoteMeta) : Nat := m.vote_slots.getLastD 0

/-- Number of slots in the inclusive Rust range
`first_vote_slot..=landed_slot + 1`. -/
def spanLen (m : VoteMeta) : Nat := m.landed_slot + 2 - first_vote_slot m

/-- The slots of the inclusive range `first_vote_slot..=landed_slot + 1`,
the range both the histogram and the placement loops walk. -/
def spanSlots (m : VoteMeta) : List Nat := List.range' (first_vote_slot m) (spanLen m)

/-- Membership of a slot in a meta's span, arithmetically. -/
def inSpan (m : VoteMeta) (s : Nat) : Bool :=
  decide (first_vote_slot m ≤ s) && decide (s ≤ m.landed_slot + 1)

/-- The cell-kind expression of the placement write (src/vv.rs
lines 233-243). -/
def entryKindFor (m : VoteMeta) (s : Nat) : TableEntryKind :=
  if s = m.landed_slot then TableEntryKind.Landed
  else if m.vote_slots.contains s then TableEntryKind.Vote
  else if s < last_vote_slot m then TableEntryKind.VoteGap
  else if s < m.landed_slot then TableEntryKind.Waiting
  else TableEntryKind.Space

/-- The table cell at `(slot, depth)`.  The Rust code stores rows
`Vec<Option<TableEntry>>` in a `BTreeMap`; a cell is `Some` exactly when an
already placed meta at that depth covers the slot, which is how we read the
table off the placement list. -/
def cellAt (placed : List (VoteMeta × Nat)) (s d : Nat) : Option TableEntry :=
  (placed.find? (fun q => q.2 == d && inSpan q.1 s)).map
    (fun q => { kind := entryKindFor q.1 s, vote_meta := q.1 })

/-- The occupancy scan of the placement loop: some slot of the candidate's
range already holds an entry at depth `d` (src/vv.rs lines 216-226). -/
def occupiedAtDepth (placed : List (VoteMeta × Nat)) (m : VoteMeta) (d : Nat) : Bool :=
  (spanSlots m).any (fun s => (cellAt placed s d).isSome)

/-- First-fit depth search.  The Rust loop asserts `depth < D` before each
probe, so reaching depth `D` is the fatal assertion: `none`. -/
def findDepth (placed : List (VoteMeta × Nat)) (m : VoteMeta) (D : Nat) : Option Nat :=
  (List.range D).find? (fun d => !(occupiedAtDepth placed m d))

/-- Greedy packing of the metas in processing order; `none` models the
`assert!(depth < *slot_vote_max_depth)` failure. -/
def packLoop (D : Nat) : List VoteMeta → List (VoteMeta × Nat) → Option (List (VoteMeta × Nat))
  | [], placed => some placed
  | m :: ms, placed =>
    match findDepth placed m D with
    | some d => packLoop D ms (placed ++ [(m, d)])
    | none => none

/-- `vote_metas.sort_by(|a, b| b.landed_slot.cmp(&a.landed_slot))`: a stable
sort descending by landed slot. -/
def sortSpans (ms : List VoteMeta) : List VoteMeta :=
  List.insertionSort (fun a b => b.landed_slot ≤ a.landed_slot) ms

/-- Packing as `process_view_votes` runs it: sort, then first-fit place. -/
def packAll (D : Nat) (ms : List VoteMeta) : Option (List (VoteMeta × Nat)) :=
  packLoop D (sortSpans ms) []

/-- Two metas' spans intersect. -/
def spansOverlap (a b : VoteMeta) : Bool :=
  (spanSlots a).any (fun s => (spanSlots b).contains s)

/-- The no-conflict relation between two placements: equal depths force
disjoint spans. -/
def noConflict (q q2 : VoteMeta × Nat) : Prop :=
  q.2 = q2.2 → spansOverlap q.1 q2.1 = false

/-- The per-slot concurrency histogram bump:
`slot_vote_count.entry(slot).and_modify(|e| *e += 1).or_insert(1)`. -/
def bumpSlot : List (Nat × Nat) → Nat → List (Nat × Nat)
  | [], s => [(s, 1)]
  | q :: h, s => if q.1 = s then (q.1, q.2 + 1) :: h else q :: bumpSlot h s

/-- Bump every slot of one meta's range `first_vote_slot..=landed_slot + 1`
(src/vv.rs lines 182-187). -/
def addSpan (h : List (Nat × Nat)) (m : VoteMeta) : List (Nat × Nat) :=
  (spanSlots m).foldl bumpSlot h

/-- The whole `slot_vote_count` histogram of a meta list. -/
def buildHist (ms : List VoteMeta) : List (Nat × Nat) :=
  ms.foldl addSpan []

/-- `slot_vote_count.values().max()`: `none` on the empty histogram, where
the Rust `unwrap` panics (src/vv.rs line 199). -/
def maxValue (h : List (Nat × Nat)) : Option Nat :=
  listMax? (h.map Prod.snd)

/-- Histogram lookup (`slot_vote_count[&slot]`, 0 when absent). -/
def lookupCount : List (Nat × Nat) → Nat → Nat
  | [], _ => 0
  | q :: h, s => if q.1 = s then q.2 else lookupCount h s

/-- How many metas of a list cover a slot: the semantic reading of the
histogram. -/
def histCount (ms : List VoteMeta) (s : Nat) : Nat :=
  ms.countP (fun m => inSpan m s)

/-- Does a cell hold a successful `Vote`
(`entry.kind == TableEntryKind::Vote && entry.vote_meta.success`)? -/
def successVoteCell (e : Option TableEntry) : Bool :=
  match e with
  | some en => decide (en.kind = TableEntryKind.Vote) && en.vote_meta.success
  | none => false

/-- The `miss` flag of the confirmation pass (src/vv.rs lines 271-277):
the slot is below the maximum observed last-vote slot and no row cell is a
successful `Vote`. -/
def rowMiss (max_last_vote_slot slot : Nat) (row : List (Option TableEntry)) : Bool :=
  decide (slot < max_last_vote_slot) && !(row.any successVoteCell)

/-- The status tag printed in front of a row (src/vv.rs lines 283-291). -/
def rowTag (confirmed miss : Bool) : String :=
  if confirmed then (if miss then " MISS " else "      ") else " SKIP "

/-- Whether a row increments `miss_count` (src/vv.rs lines 278-280). -/
def rowCountsMiss (confirmed miss : Bool) : Bool :=
  confirmed && miss

/-- The character glyph of one table cell (the `fmt::Display` impl,
src/vv.rs lines 77-97).  `&signature[0..4]` keeps the four leading
characters (the Rust slice panics on a shorter signature; real rendered
signatures are 87-88 characters).  Note the format string
`"{0}{1}{2}..{1}"`: after the two dots the SUCCESS MARKER `{1}` repeats,
keeping every glyph 9 characters wide. -/
def renderEntry (e : TableEntry) : List Char :=
  match e.kind with
  | TableEntryKind.Space => "         ".toList
  | TableEntryKind.VoteGap => "   xx    ".toList
  | TableEntryKind.Waiting => "   ^^    ".toList
  | TableEntryKind.Vote =>
    let success : Char := if e.vote_meta.success then ' ' else '!'
    ['+', success] ++ e.vote_meta.signature.take 4 ++ ['.', '.'] ++ [success]
  | TableEntryKind.Landed =>
    let success : Char := if e.vote_meta.success then ' ' else '!'
    ['=', success] ++ e.vote_meta.signature.take 4 ++ ['.', '.'] ++ [success]

/-- Reference parser for the glyph contract (claim C9 asks that rendering
be reversible): recover the cell kind, and for `Vote`/`Landed` the
four-character signature head and the success flag.  This definition follows
the spec side of the round-trip property, not the source. -/
def parseGlyphSpec (g : List Char) : Option (TableEntryKind × Option (List Char × Bool)) :=
  if g.headD ' ' = '+' then
    some (TableEntryKind.Vote, some ((g.drop 2).take 4, g.getD 1 ' ' == ' '))
  else if g.headD ' ' = '=' then
    some (TableEntryKind.Landed, some ((g.drop 2).take 4, g.getD 1 ' ' == ' '))
  else if g == "   xx    ".toList then some (TableEntryKind.VoteGap, none)
  else if g == "   ^^    ".toList then some (TableEntryKind.Waiting, none)
  else if g == "         ".toList then some (TableEntryKind.Space, none)
  else none

/-- Ascending sort of the decoded vote slots (`vote_slots.sort_unstable()`). -/
def sortSlotsAsc (l : List Nat) : List Nat :=
  List.insertionSort (fun a b => a ≤ b) l

/-- One fetched historical transaction, after the external RPC fetch and
instruction decode: its signature string, the slot it landed in, whether the
status carried an error, and the decoded slot list when
`is_simple_vote_transaction` recognised it (the decode itself lives in the
external SDK). -/
structure TxRecord where
  signature : List Char
  landed_slot : Nat
  err : Bool
  vote : Option (List Nat)
deriving DecidableEq

/-- The extraction fold of `process_view_votes` (src/vv.rs lines 150-197):
each qualifying transaction with non-empty slots contributes one `VoteMeta`
with its slots sorted ascending.  (The histogram the same fold builds is
`buildHist` of this list: both walk `first_vote_slot..=landed_slot + 1`.) -/
def extractVoteMetas (records : List TxRecord) : List VoteMeta :=
  records.foldl
    (fun acc r =>
      match r.vote with
      | some slots =>
        if slots.isEmpty then acc
        else
          acc ++ [{ signature := r.signature, success := !r.err,
                    vote_slots := sortSlotsAsc slots, landed_slot := r.landed_slot }]
      | none => acc)
    []

/-- The key set of the `BTreeMap` table after packing, ascending: every slot
of every placed span has a row (the occupancy scan inserts rows for the full
range whenever a meta is finally placed). -/
def tableKeys (pl : List (VoteMeta × Nat)) : List Nat :=
  (sortNatAsc (pl.foldl (fun acc q => acc ++ spanSlots q.1) [])).dedup

/-- One printed row of the landing table. -/
structure ViewRow where
  slot : Nat
  tag : String
  counted_miss : Bool
  cells : List (List Char)
deriving DecidableEq

/-- Everything `process_view_votes` prints after the fetches. -/
structure ViewOutput where
  rows : List ViewRow
  start_slot : Nat
  end_slot : Nat
  confirmed_count : Nat
  total_slots : Nat
  miss_count : Nat
  failed_vote_count : Nat
deriving DecidableEq

/-- The pure tail of `process_view_votes` (src/vv.rs lines 142-314), after
the external fetches: extraction, histogram maximum, sorted greedy packing,
sentinel-row removal, gap filling, and the confirmation pass against the
externally fetched `confirmed_slots`.  Every Rust `unwrap`/`assert!` failure
on this path is `none`:  the histogram maximum of line 199 when no
transaction qualified, the placement assertion of line 217, and the key
unwraps of lines 255 and 259 on an emptied table. -/
def process_view_votes (records : List TxRecord) (confirmed_slots : List Nat) :
    Option ViewOutput :=
  if records.isEmpty then
    some { rows := [], start_slot := 0, end_slot := 0, confirmed_count := 0,
           total_slots := 0, miss_count := 0, failed_vote_count := 0 }
  else
    let ms := extractVoteMetas records
    match maxValue (buildHist ms) with
    | none => none
    | some slot_vote_max_depth =>
      let sorted := sortSpans ms
      let max_last_vote_slot := sorted.foldl (fun acc m => max (last_vote_slot m) acc) 0
      let failed_vote_count := (sorted.filter (fun m => !m.success)).length
      match packLoop slot_vote_max_depth sorted [] with
      | none => none
      | some pl =>
        let keys := tableKeys pl
        match keys.getLast? with
        | none => none
        | some _ =>
          let keys2 := keys.dropLast
          match keys2.head?, keys2.getLast? with
          | some start_slot, some end_slot =>
            let allSlots := List.range' start_slot (end_slot + 1 - start_slot)
            let rows := allSlots.map (fun s =>
              let row := if keys2.contains s
                         then (List.range slot_vote_max_depth).map (fun d => cellAt pl s d)
                         else []
              let confirmed := confirmed_slots.contains s
              let miss := rowMiss max_last_vote_slot s row
              { slot := s, tag := rowTag confirmed miss,
                counted_miss := rowCountsMiss confirmed miss,
                cells := row.map (fun e => renderEntry (e.getD defaultTableEntry)) })
            some { rows := rows, start_slot := start_slot, end_slot := end_slot,
                   confirmed_count := confirmed_slots.length,
                   total_slots := end_slot - start_slot + 1,
                   miss_count := (rows.filter (fun r => r.counted_miss)).length,
                   failed_vote_count := failed_vote_count }
          | _, _ => none

/-! ### Concrete instances used by witnesses -/

/-- A concrete stand-in for the external `process_slot_vote_unchecked`:
push the voted slot onto the stack. -/
def exSim : VoteState → Nat → VoteState :=
  fun vs s => { votes := vs.votes ++ [{ slot := s, confirmation_count := 1 }] }

/-- A concrete stand-in for the external `process_vote_unchecked`. -/
def exApply : VoteState → Vote → VoteState :=
  fun vs v => { votes := vs.votes ++ [{ slot := v.slots.getLastD 0, confirmation_count := 1 }] }

/-- A live state holding one buffered vote for slots `[3, 5]` (bucket key 5)
and an ancestry map knowing only the edge `5 → 4`: slot 3 is unresolvable,
so the maintenance pass skips the vote as too shallow. -/
def exLiveState : LiveState :=
  { votes_by_slot := [(5, [(1, { slots := [3, 5], hash := 0, timestamp := none })])],
    slot_parents := [(5, 4)],
    vote_states := [] }

/-! ### Claims C6 and C7: the tower capability predicates -/

/-- C6: `is_recent(tower, s)` returns `false` exactly when the tower has a
recorded last-voted slot and that slot is `≥ s`; in particular it returns
`true` whenever no prior vote is recorded. -/
theorem claim_C6 : ∀ (vs : VoteState) (s : Nat),
    (is_recent vs s = false ↔ ∃ l, vs.last_voted_slot = some l ∧ s ≤ l) ∧
    (vs.last_voted_slot = none → is_recent vs s = true) := by
  intro vs s
  unfold is_recent
  cases h : vs.last_voted_slot with
  | none => simp
  | some l =>
    constructor
    · constructor
      · intro hf
        refine ⟨l, rfl, ?_⟩
        by_contra hle
        simp [hle] at hf
      · rintro ⟨l2, hl2, hle⟩
        cases hl2
        simp [hle]
    · intro hn
      cases hn

/-- Witness for C6 at the empty tower. -/
theorem claim_C6_witness : is_recent { votes := [] } 5 = true :=
  (claim_C6 { votes := [] } 5).2 rfl

/-- C7: `is_locked_out(tower, slot, ancestors)` simulates a vote for `slot`
on a copy of the tower and returns `true` exactly when some lockout slot of
the simulated stack other than `slot` itself is outside the ancestor set
(the caller's tower is passed by value, so it is unchanged by construction). -/
theorem claim_C7 : ∀ (sim : VoteState → Nat → VoteState) (vs : VoteState)
    (slot : Nat) (anc : List Nat),
    is_locked_out sim vs slot anc = true ↔
      ∃ l ∈ (sim vs slot).votes, l.slot ≠ slot ∧ l.slot ∉ anc := by
  intro sim vs slot anc
  unfold is_locked_out
  simp only [List.any_eq_true, Bool.and_eq_true, Bool.not_eq_true', beq_eq_false_iff_ne,
    ne_eq, List.elem_eq_mem, decide_eq_false_iff_not]
  constructor
  · rintro ⟨l, hl, hne, hnm⟩
    exact ⟨l, hl, fun h => hne h.symm, hnm⟩
  · rintro ⟨l, hl, hne, hnm⟩
    exact ⟨l, hl, fun h => hne h.symm, hnm⟩

/-- Witness for C7: with one conflicting lockout the simulated stack keeps a
slot outside the (empty) ancestor set, so the call reports a lockout. -/
theorem claim_C7_witness :
    ∃ l ∈ (exSim { votes := [{ slot := 3, confirmation_count := 1 }] } 7).votes,
      l.slot ≠ 7 ∧ l.slot ∉ ([] : List Nat) :=
  (claim_C7 exSim { votes := [{ slot := 3, confirmation_count := 1 }] } 7 []).mp (by decide)

/-! ### Claim C5: cell classification, and C4: MISS/SKIP tagging -/

/-- The spec scenario meta A: successful vote for slots 10 and 11, landed in
slot 12. -/
def mA : VoteMeta :=
  { signature := ['a'], success := true, vote_slots := [10, 11], landed_slot := 12 }

/-- The spec scenario meta B: successful vote for slots 11 and 12, landed in
slot 13. -/
def mB : VoteMeta :=
  { signature := ['b'], success := true, vote_slots := [11, 12], landed_slot := 13 }

/-- C5: the kind written into a placed cell at slot `s` is `Landed` iff
`s` is the landed slot; otherwise `Vote` iff `s` is literally a voted slot;
otherwise `VoteGap` iff `s` is below the last voted slot; otherwise
`Waiting` iff `s` is below the landed slot; otherwise `Space`. -/
theorem claim_C5 : ∀ (m : VoteMeta) (s : Nat),
    (entryKindFor m s = TableEntryKind.Landed ↔ s = m.landed_slot) ∧
    (entryKindFor m s = TableEntryKind.Vote ↔
      s ≠ m.landed_slot ∧ s ∈ m.vote_slots) ∧
    (entryKindFor m s = TableEntryKind.VoteGap ↔
      s ≠ m.landed_slot ∧ s ∉ m.vote_slots ∧ s < last_vote_slot m) ∧
    (entryKindFor m s = TableEntryKind.Waiting ↔
      s ≠ m.landed_slot ∧ s ∉ m.vote_slots ∧ last_vote_slot m ≤ s ∧ s < m.landed_slot) ∧
    (entryKindFor m s = TableEntryKind.Space ↔
      s ≠ m.landed_slot ∧ s ∉ m.vote_slots ∧ last_vote_slot m ≤ s ∧ m.landed_slot ≤ s) := by
  intro m s
  unfold entryKindFor
  split_ifs with h1 h2 h3 h4 <;> simp_all <;> omega

/-- Witness for C5 at the scenario meta `mA` and its landed slot. -/
theorem claim_C5_witness : entryKindFor mA 12 = TableEntryKind.Landed ↔ 12 = mA.landed_slot :=
  (claim_C5 mA 12).1

/-- C4: for a slot strictly below the maximum observed last-vote slot, a
confirmed row with no successful `Vote` cell is tagged `" MISS "` and counted
in the miss total; an unconfirmed row is tagged `" SKIP "` and never counted,
whatever its cells. -/
theorem claim_C4 : ∀ (max_last_vote_slot slot : Nat) (confirmed_slots : List Nat)
    (row : List (Option TableEntry)),
    slot < max_last_vote_slot →
    ((confirmed_slots.contains slot = true → row.any successVoteCell = false →
        rowTag (confirmed_slots.contains slot) (rowMiss max_last_vote_slot slot row) = " MISS " ∧
        rowCountsMiss (confirmed_slots.contains slot) (rowMiss max_last_vote_slot slot row) = true) ∧
     (confirmed_slots.contains slot = false →
        rowTag (confirmed_slots.contains slot) (rowMiss max_last_vote_slot slot row) = " SKIP " ∧
        rowCountsMiss (confirmed_slots.contains slot) (rowMiss max_last_vote_slot slot row) = false)) := by
  intro maxLast slot cset row hlt
  constructor
  · intro hc hnone
    rw [hc]
    simp [rowTag, rowCountsMiss, rowMiss, hnone, hlt]
  · intro hc
    rw [hc]
    simp [rowTag, rowCountsMiss]

/-- Witness for C4: slot 5 below max 10, confirmed, empty row. -/
theorem claim_C4_witness :
    rowTag (([5] : List Nat).contains 5) (rowMiss 10 5 []) = " MISS " ∧
    rowCountsMiss (([5] : List Nat).contains 5) (rowMiss 10 5 []) = true :=
  (claim_C4 10 5 [5] [] (by decide)).1 (by decide) (by decide)

/-! ### Claim C9: the cell glyph contract -/

/-- A successful `Vote` cell whose signature starts with `abcd`. -/
def exVoteEntry : TableEntry :=
  { kind := TableEntryKind.Vote,
    vote_meta := { signature := ['a', 'b', 'c', 'd', 'e', 'f'], success := true,
                   vote_slots := [10], landed_slot := 12 } }

/-- C9 counterexample: the claimed `Vote` glyph `sign, marker, 4 signature
characters, "..", the same 4 characters` (12 characters) is not what the
code renders; the format string repeats the success marker after the dots,
producing a 9-character glyph. -/
theorem claim_C9_counterexample :
    renderEntry exVoteEntry ≠
      ['+', ' ', 'a', 'b', 'c', 'd', '.', '.', 'a', 'b', 'c', 'd'] ∧
    renderEntry exVoteEntry = ['+', ' ', 'a', 'b', 'c', 'd', '.', '.', ' '] := by
  decide

/-- C9 amended: every glyph is 9 characters; `Space` is 9 blanks, `VoteGap`
is `"   xx    "`, `Waiting` is `"   ^^    "`, and `Vote`/`Landed` render the
sign, the success marker, the 4 leading signature characters, `".."`, and
the success marker again — and parsing the glyph recovers the kind and, for
`Vote`/`Landed`, the 4-character signature head and the success flag. -/
theorem claim_C9_amended : ∀ (e : TableEntry),
    (e.kind = TableEntryKind.Vote ∨ e.kind = TableEntryKind.Landed →
      4 ≤ e.vote_meta.signature.length) →
    parseGlyphSpec (renderEntry e) =
      some (e.kind,
        if e.kind = TableEntryKind.Vote ∨ e.kind = TableEntryKind.Landed
        then some (e.vote_meta.signature.take 4, e.vote_meta.success)
        else none) := by
  intro e hlen
  obtain ⟨k, m⟩ := e
  cases k with
  | Space =>
    have hc : ¬(TableEntryKind.Space = TableEntryKind.Vote ∨
        TableEntryKind.Space = TableEntryKind.Landed) := by decide
    simp only [renderEntry, if_neg hc]
    decide
  | VoteGap =>
    have hc : ¬(TableEntryKind.VoteGap = TableEntryKind.Vote ∨
        TableEntryKind.VoteGap = TableEntryKind.Landed) := by decide
    simp only [renderEntry, if_neg hc]
    decide
  | Waiting =>
    have hc : ¬(TableEntryKind.Waiting = TableEntryKind.Vote ∨
        TableEntryKind.Waiting = TableEntryKind.Landed) := by decide
    simp only [renderEntry, if_neg hc]
    decide
  | Vote =>
    have hlen4 : 4 ≤ m.signature.length := hlen (Or.inl rfl)
    have h4 : (m.signature.take 4).length = 4 := by
      simp only [List.length_take]
      omega
    simp only [renderEntry, parseGlyphSpec]
    cases hs : m.success <;>
      simp [List.take_append_eq_append_take, h4, List.take_take]
  | Landed =>
    have hlen4 : 4 ≤ m.signature.length := hlen (Or.inr rfl)
    have h4 : (m.signature.take 4).length = 4 := by
      simp only [List.length_take]
      omega
    simp only [renderEntry, parseGlyphSpec]
    cases hs : m.success <;>
      simp [List.take_append_eq_append_take, h4, List.take_take]

/-- Witness for C9 (amended) at the concrete `Vote` cell. -/
theorem claim_C9_witness :
    parseGlyphSpec (renderEntry exVoteEntry) =
      some (exVoteEntry.kind,
        if exVoteEntry.kind = TableEntryKind.Vote ∨ exVoteEntry.kind = TableEntryKind.Landed
        then some (exVoteEntry.vote_meta.signature.take 4, exVoteEntry.vote_meta.success)
        else none) :=
  claim_C9_amended exVoteEntry (by decide)

/-! ### Claim C10: zero qualifying votes panic the historical path -/

/-- When no record carries a qualifying vote with non-empty slots, the
extraction fold produces no metas. -/
theorem extractVoteMetas_nil (records : List TxRecord)
    (h : ∀ r ∈ records, r.vote = none ∨ r.vote = some []) :
    extractVoteMetas records = [] := by
  unfold extractVoteMetas
  induction records with
  | nil => rfl
  | cons r rs ih =>
    have hr := h r (List.mem_cons_self r rs)
    have hrest : ∀ x ∈ rs, x.vote = none ∨ x.vote = some [] :=
      fun x hx => h x (List.mem_cons_of_mem r hx)
    rcases hr with hn | he
    · simpa [hn] using ih hrest
    · simpa [he] using ih hrest

/-- C10: on a non-empty signature list where no fetched transaction is a
simple vote transaction with a non-empty slot list, `process_view_votes`
produces no result: the `max` of the empty histogram is `None` and the
`unwrap` at src/vv.rs line 199 panics. -/
theorem claim_C10 : ∀ (records : List TxRecord) (confirmed_slots : List Nat),
    records ≠ [] →
    (∀ r ∈ records, r.vote = none ∨ r.vote = some []) →
    process_view_votes records confirmed_slots = none := by
  intro records confirmed_slots hne hq
  unfold process_view_votes
  rw [if_neg (by simpa using hne)]
  rw [extractVoteMetas_nil records hq]
  rfl

/-- Witness for C10: one fetched transaction that is not a vote. -/
theorem claim_C10_witness :
    process_view_votes [{ signature := [], landed_slot := 5, err := false, vote := none }] []
      = none :=
  claim_C10 [{ signature := [], landed_slot := 5, err := false, vote := none }] []
    (by decide) (by decide)

/-! ### Claim C8: apply is guarded by is_recent and is_locked_out -/

/-- Guard property of the tail of the per-vote body. -/
theorem processOneVoteCheck_spec (sim : VoteState → Nat → VoteState)
    (applyV : VoteState → Vote → VoteState) (sp : List (Nat × Nat))
    (vs : VoteState) (vote : Vote) :
    ((processOneVoteCheck sim applyV sp vs vote).2 = VoteOutcome.applied →
      is_recent vs (vote.slots.getLastD 0) = true ∧
      is_locked_out sim vs (vote.slots.getLastD 0)
        (build_ancestors (vote.slots.getLastD 0) sp) = false ∧
      (processOneVoteCheck sim applyV sp vs vote).1 = applyV vs vote) ∧
    ((processOneVoteCheck sim applyV sp vs vote).2 ≠ VoteOutcome.applied →
      (processOneVoteCheck sim applyV sp vs vote).1 = vs) := by
  unfold processOneVoteCheck
  cases hgl : vote.slots.getLast? with
  | none => simp
  | some hs =>
    have hD : vote.slots.getLastD 0 = hs := by
      rw [List.getLastD_eq_getLast? 0 vote.slots, hgl]; rfl
    rw [hD]
    by_cases hrec : is_recent vs hs
    · by_cases hlock : is_locked_out sim vs hs (build_ancestors hs sp)
      · simp [hrec, hlock]
      · simp [hrec, hlock]
    · simp [hrec]

/-- Guard property of the whole per-vote body. -/
theorem processOneVote_spec (sim : VoteState → Nat → VoteState)
    (applyV : VoteState → Vote → VoteState) (sp : List (Nat × Nat))
    (vs : VoteState) (vote : Vote) :
    ((processOneVote sim applyV sp vs vote).2 = VoteOutcome.applied →
      is_recent vs (vote.slots.getLastD 0) = true ∧
      is_locked_out sim vs (vote.slots.getLastD 0)
        (build_ancestors (vote.slots.getLastD 0) sp) = false ∧
      (processOneVote sim applyV sp vs vote).1 = applyV vs vote) ∧
    ((processOneVote sim applyV sp vs vote).2 ≠ VoteOutcome.applied →
      (processOneVote sim applyV sp vs vote).1 = vs) := by
  have hrest :
      ((processOneVoteRest sim applyV sp vs vote).2 = VoteOutcome.applied →
        is_recent vs (vote.slots.getLastD 0) = true ∧
        is_locked_out sim vs (vote.slots.getLastD 0)
          (build_ancestors (vote.slots.getLastD 0) sp) = false ∧
        (processOneVoteRest sim applyV sp vs vote).1 = applyV vs vote) ∧
      ((processOneVoteRest sim applyV sp vs vote).2 ≠ VoteOutcome.applied →
        (processOneVoteRest sim applyV sp vs vote).1 = vs) := by
    unfold processOneVoteRest
    cases hh : vote.slots.head? with
    | none => exact processOneVoteCheck_spec sim applyV sp vs vote
    | some lo =>
      by_cases hc : acontains sp lo
      · simp only [hc, Bool.not_true, Bool.false_eq_true, if_false]
        exact processOneVoteCheck_spec sim applyV sp vs vote
      · simp [hc]
  unfold processOneVote
  cases hm : listMin? (vs.votes.map (fun l => l.slot)) with
  | none => exact hrest
  | some lo =>
    by_cases hc : acontains sp lo
    · simp only [hc, Bool.not_true, Bool.false_eq_true, if_false]
      exact hrest
    · simp [hc]

/-- C8: the live path never mutates a tower unless `is_recent` accepted the
vote's highest slot and `is_locked_out` then rejected a lockout violation;
in particular a vote whose highest slot is at or below the tower's
last-voted slot never reaches `process_vote_unchecked`. -/
theorem claim_C8 : ∀ (sim : VoteState → Nat → VoteState)
    (applyV : VoteState → Vote → VoteState) (sp : List (Nat × Nat))
    (vs : VoteState) (vote : Vote),
    ((processOneVote sim applyV sp vs vote).2 = VoteOutcome.applied →
      is_recent vs (vote.slots.getLastD 0) = true ∧
      is_locked_out sim vs (vote.slots.getLastD 0)
        (build_ancestors (vote.slots.getLastD 0) sp) = false ∧
      (processOneVote sim applyV sp vs vote).1 = applyV vs vote) ∧
    ((processOneVote sim applyV sp vs vote).2 ≠ VoteOutcome.applied →
      (processOneVote sim applyV sp vs vote).1 = vs) ∧
    (∀ l, vs.last_voted_slot = some l → vote.slots.getLastD 0 ≤ l →
      (processOneVote sim applyV sp vs vote).2 ≠ VoteOutcome.applied) := by
  intro sim applyV sp vs vote
  obtain ⟨h1, h2⟩ := processOneVote_spec sim applyV sp vs vote
  refine ⟨h1, h2, ?_⟩
  intro l hl hle happ
  have hrec := (h1 happ).1
  simp [is_recent, hl, hle] at hrec
  rw [List.getLastD_eq_getLast? 0 vote.slots] at hle
  omega

/-- Witness for C8: a fresh tower, ancestry edge `7 → 6`, a vote for `[7]`;
the vote is applied, so both guards held. -/
theorem claim_C8_witness :
    is_recent { votes := [] } ((Vote.mk [7] 0 none).slots.getLastD 0) = true ∧
    is_locked_out exSim { votes := [] } ((Vote.mk [7] 0 none).slots.getLastD 0)
      (build_ancestors ((Vote.mk [7] 0 none).slots.getLastD 0) [(7, 6)]) = false ∧
    (processOneVote exSim exApply [(7, 6)] { votes := [] } (Vote.mk [7] 0 none)).1
      = exApply { votes := [] } (Vote.mk [7] 0 none) :=
  (claim_C8 exSim exApply [(7, 6)] { votes := [] } (Vote.mk [7] 0 none)).1 (by decide)

/-! ### Claim C3: ancestry-map eviction -/

/-- The association list with child keys `a, a+1, ..., a+len-1` and parent 0. -/
def edgeList (a len : Nat) : List (Nat × Nat) :=
  (List.range' a len).map (fun c => (c, 0))

/-- Inserting a fresh key appends. -/
theorem aset_fresh {α : Type} (m : List (Nat × α)) (c : Nat) (v : α)
    (h : ∀ q ∈ m, q.1 ≠ c) : aset m c v = m ++ [(c, v)] := by
  induction m with
  | nil => rfl
  | cons q m ih =>
    have hq : q.1 ≠ c := h q (List.mem_cons_self q m)
    simp [aset, hq, ih (fun x hx => h x (List.mem_cons_of_mem q hx))]

/-- The keys of `edgeList a len` are `range' a len`. -/
theorem edgeList_map_fst (a len : Nat) : (edgeList a len).map Prod.fst = List.range' a len := by
  unfold edgeList
  rw [List.map_map]
  apply List.map_id''
  intro x
  rfl

/-- Every key of `edgeList a len` lies in `[a, a + len)`. -/
theorem edgeList_key_bounds (a len : Nat) (q : Nat × Nat) (hq : q ∈ edgeList a len) :
    a ≤ q.1 ∧ q.1 < a + len := by
  unfold edgeList at hq
  obtain ⟨c, hc, rfl⟩ := List.mem_map.mp hq
  exact List.mem_range'_1.mp hc

/-- Inserting the distinct children `0, ..., n-1` in order yields
`edgeList 0 n`. -/
theorem buildEdges_eq (n : Nat) : buildEdges n = edgeList 0 n := by
  unfold buildEdges
  induction n with
  | zero => rfl
  | succ k ih =>
    rw [List.range_succ, List.foldl_append, ih]
    show aset (edgeList 0 k) k 0 = edgeList 0 (k + 1)
    rw [aset_fresh (edgeList 0 k) k 0 (fun q hq => by
      have := edgeList_key_bounds 0 k q hq
      omega)]
    unfold edgeList
    have hr : List.range' 0 (k + 1) = List.range' 0 k ++ [k] := by
      have := @List.range'_concat 1 0 k
      simpa using this
    rw [hr, List.map_append]
    rfl

/-- The minimum of `range' a (n+1)` is `a`. -/
theorem listMin?_range' : ∀ (n a : Nat), listMin? (List.range' a (n + 1)) = some a := by
  intro n
  induction n with
  | zero => intro a; rfl
  | succ k ih =>
    intro a
    rw [List.range'_succ]
    unfold listMin?
    rw [ih (a + 1)]
    simp [Nat.min_eq_left (Nat.le_succ a)]

/-- The lowest key of a non-empty `edgeList` is its first child. -/
theorem minKey_edgeList (a n : Nat) : minKey (edgeList a (n + 1)) = a := by
  unfold minKey
  rw [edgeList_map_fst, listMin?_range']
  rfl

/-- Removing the lowest key of `edgeList a (n+1)` drops exactly its head. -/
theorem aremove_edgeList (a n : Nat) : aremove (edgeList a (n + 1)) a = edgeList (a + 1) n := by
  unfold aremove
  have hcons : edgeList a (n + 1) = (a, 0) :: edgeList (a + 1) n := by
    unfold edgeList
    rw [List.range'_succ]
    rfl
  rw [hcons, List.filter_cons]
  simp only [beq_self_eq_true, Bool.not_true, Bool.false_eq_true, if_false]
  apply List.filter_eq_self.mpr
  intro q hq
  have := edgeList_key_bounds (a + 1) n q hq
  simp only [Bool.not_eq_true', beq_eq_false_iff_ne, ne_eq]
  omega

/-- `edgeList` has one entry per child. -/
theorem edgeList_length (a len : Nat) : (edgeList a len).length = len := by
  unfold edgeList
  rw [List.length_map, List.length_range']

/-- Running the eviction loop on `edgeList a n` with enough fuel removes the
lowest children until 999 remain. -/
theorem evictFuel_edgeList : ∀ (fuel a n : Nat), n - 999 ≤ fuel →
    (evictFuel fuel (edgeList a n)).1 =
      if n < 1000 then edgeList a n else edgeList (a + (n - 999)) 999 := by
  intro fuel
  induction fuel with
  | zero =>
    intro a n hf
    have hn : n < 1000 := by omega
    rw [if_pos hn]
    rfl
  | succ k ih =>
    intro a n hf
    unfold evictFuel
    rw [edgeList_length]
    by_cases hn : n < 1000
    · rw [if_pos hn, if_pos hn]
    · rw [if_neg hn, if_neg hn]
      obtain ⟨n2, rfl⟩ : ∃ n2, n = n2 + 1 := ⟨n - 1, by omega⟩
      rw [minKey_edgeList, aremove_edgeList]
      rw [ih (a + 1) n2 (by omega)]
      by_cases hn2 : n2 < 1000
      · rw [if_pos hn2]
        have h1 : n2 = 999 := by omega
        subst h1
        norm_num
      · rw [if_neg hn2]
        have h1 : a + 1 + (n2 - 999) = a + (n2 + 1 - 999) := by omega
        rw [h1]

/-- Eviction of the freshly built `n`-edge map, `n ≥ 1000`: the children
below `n - 999` are gone. -/
theorem evict_buildEdges (n : Nat) (h : 1000 ≤ n) :
    evictAncestry (buildEdges n) = edgeList (n - 999) 999 := by
  unfold evictAncestry
  rw [buildEdges_eq]
  rw [evictFuel_edgeList (edgeList 0 n).length 0 n (by rw [edgeList_length]; omega)]
  rw [if_neg (by omega), Nat.zero_add]

/-- Key membership in an `edgeList` is interval membership. -/
theorem acontains_edgeList (a len c : Nat) :
    acontains (edgeList a len) c = true ↔ a ≤ c ∧ c < a + len := by
  unfold acontains
  rw [List.any_eq_true]
  constructor
  · rintro ⟨q, hq, hbeq⟩
    have hb := edgeList_key_bounds a len q hq
    have : q.1 = c := by simpa using hbeq
    omega
  · rintro ⟨h1, h2⟩
    refine ⟨(c, 0), ?_, by simp⟩
    unfold edgeList
    exact List.mem_map.mpr ⟨c, List.mem_range'_1.mpr ⟨h1, h2⟩, rfl⟩

/-- C3 counterexample: insert the 1001 distinct edges with children
`0..=1000` (N + k edges with N = 1000, k = 1) and evict.  The claim says
exactly child 0 is absent, so child 1 should remain; but the loop evicts
down to 999 entries, removing child 1 as well. -/
theorem claim_C3_counterexample :
    acontains (evictAncestry (buildEdges 1001)) 1 = false := by
  rw [evict_buildEdges 1001 (by omega)]
  apply Bool.eq_false_iff.mpr
  intro h
  have h2 := (acontains_edgeList (1001 - 999) 999 1).mp h
  omega

/-- Insert a batch of slot notifications `(child, parent)` in arrival order
through the `HashMap::insert` of the slot-notification arm. -/
def insertEdges (edges : List (Nat × Nat)) : List (Nat × Nat) :=
  edges.foldl (fun m e => aset m e.1 e.2) []

/-- An empty minimum means an empty list. -/
theorem listMin?_eq_none : ∀ (l : List Nat), listMin? l = none ↔ l = [] := by
  intro l
  cases l <;> simp [listMin?]

/-- The minimum is at most every member. -/
theorem listMin?_le : ∀ (l : List Nat) (M : Nat), listMin? l = some M →
    ∀ a ∈ l, M ≤ a := by
  intro l
  induction l with
  | nil => intro M h; cases h
  | cons b l ih =>
    intro M h a ha
    unfold listMin? at h
    cases hl : listMin? l with
    | none =>
      rw [hl] at h
      have hM : M = b := by injection h with h2; exact h2.symm
      have hle : l = [] := (listMin?_eq_none l).mp hl
      subst hle
      rcases List.mem_cons.mp ha with h3 | h3
      · omega
      · cases h3
    | some c =>
      rw [hl] at h
      have hM : M = min b c := by injection h with h2; exact h2.symm
      subst hM
      rcases List.mem_cons.mp ha with h3 | h3
      · subst h3; exact Nat.min_le_left _ _
      · exact Nat.le_trans (Nat.min_le_right _ _) (ih c hl a h3)

/-- The minimum is a member. -/
theorem listMin?_mem : ∀ (l : List Nat) (M : Nat), listMin? l = some M → M ∈ l := by
  intro l
  induction l with
  | nil => intro M h; cases h
  | cons b l ih =>
    intro M h
    unfold listMin? at h
    cases hl : listMin? l with
    | none =>
      rw [hl] at h
      have hM : M = b := by injection h with h2; exact h2.symm
      rw [hM]
      exact List.mem_cons_self b l
    | some c =>
      rw [hl] at h
      have hM : M = min b c := by injection h with h2; exact h2.symm
      rw [hM]
      rcases min_choice b c with h3 | h3
      · rw [h3]; exact List.mem_cons_self b l
      · rw [h3]; exact List.mem_cons_of_mem b (ih c hl)

/-- `contains_key` is key membership. -/
theorem acontains_iff_mem {α : Type} (m : List (Nat × α)) (c : Nat) :
    acontains m c = true ↔ c ∈ m.map Prod.fst := by
  unfold acontains
  rw [List.any_eq_true]
  constructor
  · rintro ⟨q, hq, hbeq⟩
    have hqc : q.1 = c := by simpa using hbeq
    exact List.mem_map.mpr ⟨q, hq, hqc⟩
  · intro hmem
    obtain ⟨q, hq, hqc⟩ := List.mem_map.mp hmem
    exact ⟨q, hq, by simp [hqc]⟩

/-- `remove` commutes with taking the key list. -/
theorem keys_aremove {α : Type} (m : List (Nat × α)) (k : Nat) :
    (aremove m k).map Prod.fst = (m.map Prod.fst).filter (fun x => !(x == k)) := by
  induction m with
  | nil => rfl
  | cons q m ih =>
    show (List.filter _ (q :: m)).map Prod.fst = _
    rw [List.filter_cons, List.map_cons, List.filter_cons]
    by_cases hq : (!(q.1 == k)) = true
    · rw [if_pos hq, List.map_cons, if_pos hq]
      rw [show List.filter (fun q2 => !(q2.1 == k)) m = aremove m k from rfl, ih]
    · rw [if_neg hq, if_neg hq]
      rw [show List.filter (fun q2 => !(q2.1 == k)) m = aremove m k from rfl, ih]

/-- Filtering out an absent key is the identity. -/
theorem filter_ne_of_not_mem (l : List Nat) (a : Nat) (h : a ∉ l) :
    l.filter (fun x => !(x == a)) = l := by
  apply List.filter_eq_self.mpr
  intro x hx
  simp only [Bool.not_eq_true', beq_eq_false_iff_ne, ne_eq]
  intro hxa
  exact h (hxa ▸ hx)

/-- Removing the unique occurrence of a present key drops one element. -/
theorem length_filter_ne : ∀ (l : List Nat) (a : Nat), l.Nodup → a ∈ l →
    (l.filter (fun x => !(x == a))).length = l.length - 1 := by
  intro l
  induction l with
  | nil => intro a _ ha; cases ha
  | cons b l ih =>
    intro a hnd ha
    have hbl : b ∉ l := (List.nodup_cons.mp hnd).1
    have hndl : l.Nodup := (List.nodup_cons.mp hnd).2
    rw [List.filter_cons]
    rcases List.mem_cons.mp ha with rfl | hal
    · rw [if_neg (by simp)]
      rw [filter_ne_of_not_mem l a hbl]
      simp
    · have hba : b ≠ a := fun h2 => hbl (h2 ▸ hal)
      rw [if_pos (by simp [hba])]
      have h1 : 1 ≤ l.length := List.length_pos.mpr (List.ne_nil_of_mem hal)
      rw [List.length_cons, ih a hndl hal, List.length_cons]
      omega

/-- Removing the unique occurrence of a present key lowers any `countP` by
that key's own contribution. -/
theorem countP_filter_ne : ∀ (l : List Nat) (a : Nat) (p : Nat → Bool),
    l.Nodup → a ∈ l →
    (l.filter (fun x => !(x == a))).countP p =
      l.countP p - (if p a = true then 1 else 0) := by
  intro l
  induction l with
  | nil => intro a p _ ha; cases ha
  | cons b l ih =>
    intro a p hnd ha
    have hbl : b ∉ l := (List.nodup_cons.mp hnd).1
    have hndl : l.Nodup := (List.nodup_cons.mp hnd).2
    rw [List.filter_cons, List.countP_cons]
    rcases List.mem_cons.mp ha with rfl | hal
    · rw [if_neg (by simp)]
      rw [filter_ne_of_not_mem l a hbl]
      by_cases hpa : p a = true <;> simp [hpa]
    · have hba : b ≠ a := fun h2 => hbl (h2 ▸ hal)
      rw [if_pos (by simp [hba])]
      rw [List.countP_cons, ih a p hndl hal]
      have hpos : p a = true → 1 ≤ l.countP p := by
        intro hpa
        exact List.countP_pos_iff.mpr ⟨a, hal, hpa⟩
      rcases Bool.eq_false_or_eq_true (p a) with hpa | hpa
      · have h1 : 1 ≤ l.countP p := hpos hpa
        rcases Bool.eq_false_or_eq_true (p b) with hpb | hpb <;> simp [hpa, hpb] <;> omega
      · rcases Bool.eq_false_or_eq_true (p b) with hpb | hpb <;> simp [hpa, hpb]

/-- What survives the eviction loop of an arbitrary map with distinct child
keys: a child key stays exactly when at least `len - 999` keys are strictly
below it (the loop removes the `len - 999` lowest keys, one per iteration). -/
theorem evictFuel_mem : ∀ (fuel : Nat) (m : List (Nat × Nat)) (c : Nat),
    (m.map Prod.fst).Nodup → m.length - 999 ≤ fuel →
    (acontains (evictFuel fuel m).1 c = true ↔
      acontains m c = true ∧
        m.length - 999 ≤ (m.map Prod.fst).countP (fun x => decide (x < c))) := by
  intro fuel
  induction fuel with
  | zero =>
    intro m c _ hf
    have h0 : m.length - 999 = 0 := by omega
    rw [h0]
    show acontains m c = true ↔ _
    simp
  | succ fuel ih =>
    intro m c hnd hf
    show acontains
        (if m.length < 1000 then (m, minKey m)
         else evictFuel fuel (aremove m (minKey m))).1 c = true ↔ _
    by_cases hlen : m.length < 1000
    · rw [if_pos hlen]
      have h0 : m.length - 999 = 0 := by omega
      rw [h0]
      show acontains m c = true ↔ _
      simp
    · rw [if_neg hlen]
      have hne : m ≠ [] := by
        intro h2
        rw [h2] at hlen
        simp at hlen
      have hkne : m.map Prod.fst ≠ [] := by simpa using hne
      obtain ⟨lo, hlo⟩ : ∃ lo, listMin? (m.map Prod.fst) = some lo := by
        cases hx : listMin? (m.map Prod.fst) with
        | none => exact absurd ((listMin?_eq_none _).mp hx) hkne
        | some a => exact ⟨a, rfl⟩
      have hmk : minKey m = lo := by unfold minKey; rw [hlo]; rfl
      have hlomem : lo ∈ m.map Prod.fst := listMin?_mem _ lo hlo
      have hlole : ∀ x ∈ m.map Prod.fst, lo ≤ x := listMin?_le _ lo hlo
      rw [hmk]
      have hkeys : (aremove m lo).map Prod.fst =
          (m.map Prod.fst).filter (fun x => !(x == lo)) := keys_aremove m lo
      have hnd2 : ((aremove m lo).map Prod.fst).Nodup := by
        rw [hkeys]
        exact hnd.filter _
      have hlen2 : (aremove m lo).length = m.length - 1 := by
        calc (aremove m lo).length
            = ((aremove m lo).map Prod.fst).length := (List.length_map _ _).symm
          _ = ((m.map Prod.fst).filter (fun x => !(x == lo))).length := by rw [hkeys]
          _ = (m.map Prod.fst).length - 1 := length_filter_ne _ lo hnd hlomem
          _ = m.length - 1 := by rw [List.length_map]
      rw [ih (aremove m lo) c hnd2 (by omega), hlen2]
      by_cases hc : c = lo
      · subst hc
        have hcon : acontains (aremove m c) c = false := by
          apply Bool.eq_false_iff.mpr
          intro htrue
          have hmem := (acontains_iff_mem _ c).mp htrue
          rw [hkeys] at hmem
          have hpred := List.of_mem_filter hmem
          simp at hpred
        have hcb : (m.map Prod.fst).countP (fun x => decide (x < c)) = 0 := by
          apply List.countP_eq_zero.mpr
          intro a ha
          have := hlole a ha
          simp only [decide_eq_true_eq]
          omega
        rw [hcon, hcb]
        simp only [Bool.false_eq_true, false_and, false_iff, not_and]
        intro _
        omega
      · have hcon : acontains (aremove m lo) c = acontains m c := by
          cases hy : acontains m c with
          | false =>
            apply Bool.eq_false_iff.mpr
            intro htrue
            have hmem := (acontains_iff_mem _ c).mp htrue
            rw [hkeys] at hmem
            have hmem2 := List.mem_of_mem_filter hmem
            have h3 := (acontains_iff_mem m c).mpr hmem2
            rw [hy] at h3
            exact Bool.noConfusion h3
          | true =>
            apply (acontains_iff_mem _ c).mpr
            rw [hkeys]
            apply List.mem_filter.mpr
            refine ⟨(acontains_iff_mem m c).mp hy, ?_⟩
            simp [hc]
        rw [hcon]
        by_cases hy : acontains m c = true
        · have hcmem := (acontains_iff_mem m c).mp hy
          have hloc : lo < c := by
            have := hlole c hcmem
            omega
          have hcb : ((aremove m lo).map Prod.fst).countP (fun x => decide (x < c))
              = (m.map Prod.fst).countP (fun x => decide (x < c)) - 1 := by
            rw [hkeys, countP_filter_ne _ lo _ hnd hlomem]
            simp [hloc]
          have hpos : 1 ≤ (m.map Prod.fst).countP (fun x => decide (x < c)) :=
            List.countP_pos_iff.mpr ⟨lo, hlomem, by simp [hloc]⟩
          rw [hcb, hy]
          simp only [true_and]
          constructor <;> intro h2 <;> omega
        · have hyf : acontains m c = false := by
            cases hz : acontains m c with
            | false => rfl
            | true => exact absurd hz hy
          rw [hyf]
          simp
  
/-- Inserting pairwise-fresh edges into a map disjoint from them appends. -/
theorem insertEdges_go : ∀ (edges : List (Nat × Nat)) (acc : List (Nat × Nat)),
    (∀ e ∈ edges, ∀ q ∈ acc, q.1 ≠ e.1) → (edges.map Prod.fst).Nodup →
    edges.foldl (fun m e => aset m e.1 e.2) acc = acc ++ edges := by
  intro edges
  induction edges with
  | nil => intro acc _ _; simp
  | cons e rest ih =>
    intro acc hdisj hnd
    rw [List.foldl_cons]
    have hfresh : aset acc e.1 e.2 = acc ++ [e] := by
      rw [aset_fresh acc e.1 e.2 (fun q hq => hdisj e (List.mem_cons_self e rest) q hq)]
    rw [hfresh]
    have hnd2 : (rest.map Prod.fst).Nodup := by
      rw [List.map_cons] at hnd
      exact (List.nodup_cons.mp hnd).2
    have hnotmem : e.1 ∉ rest.map Prod.fst := by
      rw [List.map_cons] at hnd
      exact (List.nodup_cons.mp hnd).1
    have hdisj2 : ∀ x ∈ rest, ∀ q ∈ acc ++ [e], q.1 ≠ x.1 := by
      intro x hx q hq
      rcases List.mem_append.mp hq with h2 | h2
      · exact hdisj x (List.mem_cons_of_mem e hx) q h2
      · rcases List.mem_singleton.mp h2 with rfl
        intro heq
        exact hnotmem (heq ▸ List.mem_map.mpr ⟨x, hx, rfl⟩)
    rw [ih (acc ++ [e]) hdisj2 hnd2, List.append_assoc]
    rfl

/-- With distinct children, batch insertion reproduces the edge list. -/
theorem insertEdges_eq (edges : List (Nat × Nat)) (hnd : (edges.map Prod.fst).Nodup) :
    insertEdges edges = edges := by
  unfold insertEdges
  rw [insertEdges_go edges [] (fun e _ q hq => absurd hq (List.not_mem_nil q)) hnd]
  rfl

/-- C3 amended: with cap constant 1000, the eviction loop keeps 999 live
entries, so after inserting any N + k distinct edges (N = 1000, k ≥ 1, any
insertion order, any parents) exactly the k + 1 lowest-numbered child slots
are absent and all other inserted children remain present: an inserted child
survives iff at least k + 1 inserted children are numbered strictly below
it. -/
theorem claim_C3_amended : ∀ (k : Nat), 1 ≤ k → ∀ (edges : List (Nat × Nat)),
    (edges.map Prod.fst).Nodup → edges.length = 1000 + k →
    ∀ c ∈ edges.map Prod.fst,
      (acontains (evictAncestry (insertEdges edges)) c = true ↔
        k + 1 ≤ (edges.map Prod.fst).countP (fun x => decide (x < c))) := by
  intro k hk edges hnd hlen c hc
  rw [insertEdges_eq edges hnd]
  unfold evictAncestry
  rw [evictFuel_mem edges.length edges c hnd (by omega)]
  have hcon : acontains edges c = true := (acontains_iff_mem edges c).mpr hc
  rw [hcon, hlen]
  have hsub : 1000 + k - 999 = k + 1 := by omega
  rw [hsub]
  simp

/-- Witness for C3 (amended) at k = 1 with the 1001 ascending edges
`(0,0), ..., (1000,0)`: child 2 survives, having two children below it. -/
theorem claim_C3_witness :
    acontains (evictAncestry (insertEdges (edgeList 0 1001))) 2 = true ↔
      1 + 1 ≤ ((edgeList 0 1001).map Prod.fst).countP (fun x => decide (x < 2)) :=
  claim_C3_amended 1 (by omega) (edgeList 0 1001)
    (by rw [edgeList_map_fst]; exact List.nodup_range' _ _)
    (by rw [edgeList_length])
    2
    (by rw [edgeList_map_fst]; exact List.mem_range'_1.mpr ⟨by omega, by omega⟩)

/-! ### Claim C1: buffered votes do not survive the pass that examines them -/

/-- Sorting does not change membership. -/
theorem mem_sortNatAsc (a : Nat) (l : List Nat) : a ∈ sortNatAsc l ↔ a ∈ l :=
  (List.perm_insertionSort _ l).mem_iff

/-- The drain loop's effect on the vote buffer: every processed bucket key
is removed, independent of per-vote outcomes. -/
theorem drainFold_fst (sim : VoteState → Nat → VoteState)
    (applyV : VoteState → Vote → VoteState) (sp : List (Nat × Nat)) :
    ∀ (slots : List Nat)
      (acc : List (Nat × List (Nat × Vote)) × List (Nat × VoteState) × List (Nat × VoteOutcome)),
      (slots.foldl (drainStep sim applyV sp) acc).1 =
        acc.1.filter (fun b => !(slots.contains b.1)) := by
  intro slots
  induction slots with
  | nil => intro acc; simp
  | cons s rest ih =>
    intro acc
    rw [List.foldl_cons, ih]
    show (aremove acc.1 s).filter _ = _
    unfold aremove
    rw [List.filter_filter]
    apply List.filter_congr
    intro b _
    simp only [List.contains_cons, Bool.not_or]
    rw [Bool.and_comm]

/-- C1 amended: a vote skipped by a maintenance pass for too-shallow
ancestry does NOT remain buffered: its bucket was popped before its entries
were examined, and skipped entries are not re-queued.  After a pass (with
non-empty ancestry) the buffer holds exactly the buckets keyed at or above
the post-eviction lowest ancestry slot and strictly above the highest
ancestry slot — everything at or below the highest was examined and dropped,
validated or not. -/
theorem claim_C1_amended : ∀ (sim : VoteState → Nat → VoteState)
    (applyV : VoteState → Vote → VoteState) (st : LiveState),
    st.slot_parents ≠ [] →
    ((maintenancePass sim applyV st).1).votes_by_slot =
      st.votes_by_slot.filter
        (fun b => decide (evictLowest st ≤ b.1) && !(decide (b.1 ≤ ancestryHighest st))) := by
  intro sim applyV st hne
  unfold maintenancePass
  rw [if_neg hne]
  dsimp only
  rw [drainFold_fst, List.filter_filter]
  apply List.filter_congr
  intro b hb
  by_cases hlo : evictLowest st ≤ b.1
  · have hbv : b ∈ st.votes_by_slot.filter (fun b2 => decide (evictLowest st ≤ b2.1)) :=
      List.mem_filter.mpr ⟨hb, by simpa using hlo⟩
    have hmem : b.1 ∈ (st.votes_by_slot.filter
        (fun b2 => decide (evictLowest st ≤ b2.1))).map Prod.fst :=
      List.mem_map.mpr ⟨b, hbv, rfl⟩
    by_cases hhi : b.1 ≤ ancestryHighest st
    · have hc : (sortNatAsc (((st.votes_by_slot.filter
          (fun b2 => decide (evictLowest st ≤ b2.1))).map Prod.fst).filter
            (fun s => decide (s ≤ ancestryHighest st)))).contains b.1 = true := by
        simp only [List.elem_eq_mem, decide_eq_true_eq]
        rw [mem_sortNatAsc]
        exact List.mem_filter.mpr ⟨hmem, by simpa using hhi⟩
      rw [hc]
      simp [hlo, hhi]
    · have hc : (sortNatAsc (((st.votes_by_slot.filter
          (fun b2 => decide (evictLowest st ≤ b2.1))).map Prod.fst).filter
            (fun s => decide (s ≤ ancestryHighest st)))).contains b.1 = false := by
        simp only [List.elem_eq_mem, decide_eq_false_iff_not]
        rw [mem_sortNatAsc]
        intro hmem2
        exact hhi (by simpa using (List.mem_filter.mp hmem2).2)
      rw [hc]
      simp [hlo, hhi]
  · simp [hlo]

/-- C1 counterexample: the state `exLiveState` buffers one vote under bucket
key 5; ancestry knows only `5 → 4`, so the vote's lowest slot 3 is
unresolvable and the pass logs a shallow skip — yet after the pass the
buffer is empty although the bucket key 5 is not below the lowest ancestry
slot 5.  The claim's "remains buffered and eligible for a later pass" fails:
examining a vote drops it. -/
theorem claim_C1_counterexample :
    ((maintenancePass exSim exApply exLiveState).1).votes_by_slot = [] ∧
    (maintenancePass exSim exApply exLiveState).2 = [(1, VoteOutcome.skippedVoteShallow 3)] ∧
    evictLowest exLiveState ≤ 5 ∧
    ((maintenancePass exSim exApply exLiveState).1).vote_states
      = [(1, { votes := [] })] := by
  decide

/-- Witness for C1 (amended) at the concrete skip state. -/
theorem claim_C1_witness :
    ((maintenancePass exSim exApply exLiveState).1).votes_by_slot =
      exLiveState.votes_by_slot.filter
        (fun b => decide (evictLowest exLiveState ≤ b.1) &&
          !(decide (b.1 ≤ ancestryHighest exLiveState))) :=
  claim_C1_amended exSim exApply exLiveState (by decide)

/-! ### Claim C2: greedy packing stays within the histogram bound -/

/-- Span membership as arithmetic. -/
theorem mem_spanSlots (m : VoteMeta) (s : Nat) :
    s ∈ spanSlots m ↔ inSpan m s = true := by
  unfold spanSlots inSpan spanLen
  rw [List.mem_range'_1]
  simp only [Bool.and_eq_true, decide_eq_true_eq]
  omega

/-- A non-empty span contains its right endpoint `landed_slot + 1`. -/
theorem inSpan_landed_succ (m : VoteMeta) (h : spanSlots m ≠ []) :
    inSpan m (m.landed_slot + 1) = true := by
  have hlen : spanLen m ≠ 0 := by
    intro h0
    exact h (by unfold spanSlots; rw [h0]; rfl)
  unfold spanLen at hlen
  unfold inSpan
  simp only [Bool.and_eq_true, decide_eq_true_eq]
  omega

/-- Overlap of two spans is a common slot. -/
theorem spansOverlap_iff (a b : VoteMeta) :
    spansOverlap a b = true ↔ ∃ s, s ∈ spanSlots a ∧ s ∈ spanSlots b := by
  unfold spansOverlap
  simp [List.any_eq_true]

/-- The occupancy scan sees exactly the already placed overlapping spans at
that depth. -/
theorem occupied_iff (pl : List (VoteMeta × Nat)) (m : VoteMeta) (d : Nat) :
    occupiedAtDepth pl m d = true ↔
      ∃ q ∈ pl, q.2 = d ∧ spansOverlap q.1 m = true := by
  unfold occupiedAtDepth cellAt
  rw [List.any_eq_true]
  constructor
  · rintro ⟨s, hs, hsome⟩
    rw [Option.isSome_map'] at hsome
    obtain ⟨q, hq, hpred⟩ := List.find?_isSome.mp hsome
    simp only [Bool.and_eq_true, beq_iff_eq] at hpred
    refine ⟨q, hq, hpred.1, ?_⟩
    rw [spansOverlap_iff]
    exact ⟨s, (mem_spanSlots q.1 s).mpr hpred.2, hs⟩
  · rintro ⟨q, hq, hd, hov⟩
    obtain ⟨s, hs1, hs2⟩ := (spansOverlap_iff q.1 m).mp hov
    refine ⟨s, hs2, ?_⟩
    rw [Option.isSome_map']
    apply List.find?_isSome.mpr
    refine ⟨q, hq, ?_⟩
    simp only [Bool.and_eq_true, beq_iff_eq]
    exact ⟨hd, (mem_spanSlots q.1 s).mp hs1⟩

/-- One histogram bump adds one to exactly its own slot's count. -/
theorem lookupCount_bumpSlot : ∀ (h : List (Nat × Nat)) (t s : Nat),
    lookupCount (bumpSlot h t) s = lookupCount h s + (if t = s then 1 else 0) := by
  intro h
  induction h with
  | nil =>
    intro t s
    by_cases hts : t = s <;> simp [bumpSlot, lookupCount, hts]
  | cons q h ih =>
    intro t s
    by_cases hqt : q.1 = t
    · by_cases hqs : q.1 = s
      · have hts : t = s := by omega
        simp [bumpSlot, lookupCount, hqt, hqs, hts]
      · have hts : ¬(t = s) := by omega
        simp [bumpSlot, lookupCount, hqt, hqs, hts]
    · by_cases hqs : q.1 = s
      · have hts : ¬(t = s) := by omega
        have hst : ¬(s = t) := fun h2 => hts h2.symm
        simp [bumpSlot, lookupCount, hqt, hqs, hts, hst]
      · simp [bumpSlot, lookupCount, hqt, hqs, ih t s]

/-- Folding bumps over a slot list adds that list's multiplicity. -/
theorem lookupCount_foldl_bump : ∀ (ts : List Nat) (h : List (Nat × Nat)) (s : Nat),
    lookupCount (ts.foldl bumpSlot h) s = lookupCount h s + ts.count s := by
  intro ts
  induction ts with
  | nil => intro h s; simp
  | cons t ts ih =>
    intro h s
    rw [List.foldl_cons, ih (bumpSlot h t) s, lookupCount_bumpSlot h t s]
    by_cases hts : t = s <;> simp [List.count_cons, hts] <;> omega

/-- A span contains each slot at most once. -/
theorem count_spanSlots (m : VoteMeta) (s : Nat) :
    (spanSlots m).count s = if inSpan m s = true then 1 else 0 := by
  by_cases hs : inSpan m s = true
  · rw [if_pos hs]
    apply List.count_eq_one_of_mem
    · unfold spanSlots
      exact List.nodup_range' _ _
    · exact (mem_spanSlots m s).mpr hs
  · rw [if_neg hs]
    apply List.count_eq_zero_of_not_mem
    intro hmem
    exact hs ((mem_spanSlots m s).mp hmem)

/-- Adding one meta's span bumps exactly the slots it covers. -/
theorem lookupCount_addSpan (h : List (Nat × Nat)) (m : VoteMeta) (s : Nat) :
    lookupCount (addSpan h m) s = lookupCount h s + (if inSpan m s = true then 1 else 0) := by
  unfold addSpan
  rw [lookupCount_foldl_bump, count_spanSlots]

/-- The built histogram counts covering metas. -/
theorem lookupCount_buildHist_aux : ∀ (ms : List VoteMeta) (h : List (Nat × Nat)) (s : Nat),
    lookupCount (ms.foldl addSpan h) s = lookupCount h s + histCount ms s := by
  intro ms
  induction ms with
  | nil => intro h s; simp [histCount]
  | cons m ms ih =>
    intro h s
    rw [List.foldl_cons, ih (addSpan h m) s, lookupCount_addSpan h m s]
    unfold histCount
    simp only [List.countP_cons]
    by_cases hc : inSpan m s = true <;> simp [hc] <;> omega

/-- `slot_vote_count[s] = |{metas covering s}|`. -/
theorem lookupCount_buildHist (ms : List VoteMeta) (s : Nat) :
    lookupCount (buildHist ms) s = histCount ms s := by
  unfold buildHist
  rw [lookupCount_buildHist_aux ms [] s]
  simp [lookupCount]

/-- An empty maximum means an empty list. -/
theorem listMax?_eq_none : ∀ (l : List Nat), listMax? l = none ↔ l = [] := by
  intro l
  cases l <;> simp [listMax?]

/-- Every member is at most the maximum. -/
theorem listMax?_le : ∀ (l : List Nat) (M : Nat), listMax? l = some M →
    ∀ a ∈ l, a ≤ M := by
  intro l
  induction l with
  | nil => intro M h; cases h
  | cons b l ih =>
    intro M h a ha
    unfold listMax? at h
    cases hl : listMax? l with
    | none =>
      rw [hl] at h
      have hM : M = b := by
        injection h with h2
        exact h2.symm
      have hle : l = [] := (listMax?_eq_none l).mp hl
      subst hle
      rcases List.mem_cons.mp ha with h3 | h3
      · omega
      · cases h3
    | some c =>
      rw [hl] at h
      have hM : M = max b c := by
        injection h with h2
        exact h2.symm
      subst hM
      rcases List.mem_cons.mp ha with h3 | h3
      · subst h3; exact Nat.le_max_left _ _
      · exact Nat.le_trans (ih c hl a h3) (Nat.le_max_right _ _)

/-- The maximum is a member. -/
theorem listMax?_mem : ∀ (l : List Nat) (M : Nat), listMax? l = some M → M ∈ l := by
  intro l
  induction l with
  | nil => intro M h; cases h
  | cons b l ih =>
    intro M h
    unfold listMax? at h
    cases hl : listMax? l with
    | none =>
      rw [hl] at h
      have hM : M = b := by injection h with h2; exact h2.symm
      rw [hM]
      exact List.mem_cons_self b l
    | some c =>
      rw [hl] at h
      have hM : M = max b c := by injection h with h2; exact h2.symm
      subst hM
      rcases max_choice b c with h3 | h3
      · rw [h3]; exact List.mem_cons_self b l
      · rw [h3]; exact List.mem_cons_of_mem b (ih c hl)

/-- Bumps keep histogram values positive. -/
theorem bumpSlot_values_pos : ∀ (h : List (Nat × Nat)) (t : Nat),
    (∀ q ∈ h, 1 ≤ q.2) → ∀ q ∈ bumpSlot h t, 1 ≤ q.2 := by
  intro h
  induction h with
  | nil =>
    intro t _ q hq
    simp only [bumpSlot] at hq
    rcases List.mem_singleton.mp hq with rfl
    omega
  | cons b h ih =>
    intro t hpos q hq
    simp only [bumpSlot] at hq
    by_cases hbt : b.1 = t
    · rw [if_pos hbt] at hq
      rcases List.mem_cons.mp hq with rfl | h2
      · have := hpos b (List.mem_cons_self b h)
        omega
      · exact hpos q (List.mem_cons_of_mem b h2)
    · rw [if_neg hbt] at hq
      rcases List.mem_cons.mp hq with rfl | h2
      · exact hpos q (List.mem_cons_self q h)
      · exact ih t (fun x hx => hpos x (List.mem_cons_of_mem b hx)) q h2

/-- Span folds keep histogram values positive. -/
theorem foldl_bump_values_pos : ∀ (ts : List Nat) (h : List (Nat × Nat)),
    (∀ q ∈ h, 1 ≤ q.2) → ∀ q ∈ ts.foldl bumpSlot h, 1 ≤ q.2 := by
  intro ts
  induction ts with
  | nil => intro h hpos q hq; exact hpos q hq
  | cons t ts ih =>
    intro h hpos q hq
    exact ih (bumpSlot h t) (bumpSlot_values_pos h t hpos) q hq

/-- Every value of the built histogram is positive. -/
theorem buildHist_values_pos : ∀ (ms : List VoteMeta) (q : Nat × Nat),
    q ∈ buildHist ms → 1 ≤ q.2 := by
  have aux : ∀ (ms : List VoteMeta) (h : List (Nat × Nat)),
      (∀ q ∈ h, 1 ≤ q.2) → ∀ q ∈ ms.foldl addSpan h, 1 ≤ q.2 := by
    intro ms
    induction ms with
    | nil => intro h hpos q hq; exact hpos q hq
    | cons m ms ih =>
      intro h hpos q hq
      exact ih (addSpan h m) (foldl_bump_values_pos (spanSlots m) h hpos) q hq
  intro ms q hq
  exact aux ms [] (by intro x hx; cases hx) q hq

/-- Every lookup hits zero or a stored value. -/
theorem lookupCount_cases : ∀ (h : List (Nat × Nat)) (s : Nat),
    lookupCount h s = 0 ∨ ∃ q ∈ h, q.2 = lookupCount h s := by
  intro h
  induction h with
  | nil => intro s; left; rfl
  | cons b h ih =>
    intro s
    by_cases hbs : b.1 = s
    · right
      exact ⟨b, List.mem_cons_self b h, by simp [lookupCount, hbs]⟩
    · rcases ih s with h1 | ⟨q, hq, h2⟩
      · left; simp [lookupCount, hbs, h1]
      · right; exact ⟨q, List.mem_cons_of_mem b hq, by simp [lookupCount, hbs, h2]⟩

/-- The histogram maximum bounds every per-slot count and is at least 1. -/
theorem maxValue_bounds (ms : List VoteMeta) (D : Nat)
    (hmax : maxValue (buildHist ms) = some D) :
    (∀ s, histCount ms s ≤ D) ∧ 1 ≤ D := by
  unfold maxValue at hmax
  constructor
  · intro s
    rw [← lookupCount_buildHist ms s]
    rcases lookupCount_cases (buildHist ms) s with h1 | ⟨q, hq, h2⟩
    · omega
    · rw [← h2]
      exact listMax?_le _ D hmax q.2 (List.mem_map.mpr ⟨q, hq, rfl⟩)
  · have hm := listMax?_mem _ D hmax
    obtain ⟨q, hq, hq2⟩ := List.mem_map.mp hm
    have := buildHist_values_pos ms q hq
    omega

/-- If every depth below `D` has a placed blocker covering slot `p`, then at
least `D` placed entries cover `p` (entries at distinct depths are distinct). -/
theorem blockers_le_countP (pl : List (VoteMeta × Nat)) (p D : Nat)
    (hp : ∀ d, d < D → ∃ q ∈ pl, q.2 = d ∧ inSpan q.1 p = true) :
    D ≤ pl.countP (fun q => inSpan q.1 p) := by
  have hsub : Finset.range D ⊆
      ((pl.filter (fun q => inSpan q.1 p)).map Prod.snd).toFinset := by
    intro d hd
    rw [List.mem_toFinset, List.mem_map]
    obtain ⟨q, hq, hd2, hin⟩ := hp d (Finset.mem_range.mp hd)
    exact ⟨q, List.mem_filter.mpr ⟨hq, hin⟩, hd2⟩
  calc D = (Finset.range D).card := (Finset.card_range D).symm
    _ ≤ ((pl.filter (fun q => inSpan q.1 p)).map Prod.snd).toFinset.card :=
        Finset.card_le_card hsub
    _ ≤ ((pl.filter (fun q => inSpan q.1 p)).map Prod.snd).length :=
        List.toFinset_card_le _
    _ = (pl.filter (fun q => inSpan q.1 p)).length := List.length_map _ _
    _ = pl.countP (fun q => inSpan q.1 p) := (List.countP_eq_length_filter _ _).symm

/-- The stable descending sort really is sorted (descending by landed slot). -/
theorem sorted_sortSpans (ms : List VoteMeta) :
    List.Pairwise (fun a b => b.landed_slot ≤ a.landed_slot) (sortSpans ms) := by
  unfold sortSpans
  exact @List.sorted_insertionSort VoteMeta (fun a b => b.landed_slot ≤ a.landed_slot) _
    ⟨fun a b => Nat.le_total b.landed_slot a.landed_slot⟩
    ⟨fun a b c h1 h2 => Nat.le_trans h2 h1⟩ ms

/-- The packing invariant: processing the remaining metas of a descending
sorted list, with every placement so far below `D` and conflict-free, keeps
the assertion unreachable and extends the placement conflict-free, provided
`D` bounds the concurrency histogram of the whole list. -/
theorem packLoop_go (D : Nat) (hD : 1 ≤ D) :
    ∀ (rest : List VoteMeta) (pl : List (VoteMeta × Nat)),
      List.Pairwise (fun a b => b.landed_slot ≤ a.landed_slot) (pl.map Prod.fst ++ rest) →
      (∀ s, histCount (pl.map Prod.fst ++ rest) s ≤ D) →
      (∀ q ∈ pl, q.2 < D) →
      pl.Pairwise noConflict →
      ∃ pl2, packLoop D rest pl = some pl2 ∧
        pl2.map Prod.fst = pl.map Prod.fst ++ rest ∧
        (∀ q ∈ pl2, q.2 < D) ∧ pl2.Pairwise noConflict := by
  intro rest
  induction rest with
  | nil =>
    intro pl _ _ hdep hconf
    exact ⟨pl, rfl, by simp, hdep, hconf⟩
  | cons m rest2 ih =>
    intro pl hsort hhist hdep hconf
    have hfind : ∃ d, findDepth pl m D = some d := by
      cases hf : findDepth pl m D with
      | some d => exact ⟨d, rfl⟩
      | none =>
        exfalso
        have hall : ∀ d, d < D → occupiedAtDepth pl m d = true := by
          intro d hd
          have h2 := List.find?_eq_none.mp hf d (List.mem_range.mpr hd)
          simpa using h2
        by_cases hsp : spanSlots m = []
        · have h0 := hall 0 hD
          unfold occupiedAtDepth at h0
          rw [hsp] at h0
          simp at h0
        · have hin_m : inSpan m (m.landed_slot + 1) = true := inSpan_landed_succ m hsp
          have hblock : ∀ d, d < D →
              ∃ q ∈ pl, q.2 = d ∧ inSpan q.1 (m.landed_slot + 1) = true := by
            intro d hd
            obtain ⟨q, hq, hd2, hov⟩ := (occupied_iff pl m d).mp (hall d hd)
            refine ⟨q, hq, hd2, ?_⟩
            obtain ⟨s, hs1, hs2⟩ := (spansOverlap_iff q.1 m).mp hov
            have hle : m.landed_slot ≤ q.1.landed_slot := by
              have h1 : q.1 ∈ pl.map Prod.fst := List.mem_map.mpr ⟨q, hq, rfl⟩
              exact (List.pairwise_append.mp hsort).2.2 q.1 h1 m (List.mem_cons_self m rest2)
            have hs1b := (mem_spanSlots q.1 s).mp hs1
            have hs2b := (mem_spanSlots m s).mp hs2
            simp only [inSpan, Bool.and_eq_true, decide_eq_true_eq] at hs1b hs2b ⊢
            omega
          have hcount := blockers_le_countP pl (m.landed_slot + 1) D hblock
          have hbig : D + 1 ≤ histCount (pl.map Prod.fst ++ m :: rest2) (m.landed_slot + 1) := by
            unfold histCount
            rw [List.countP_append, List.countP_cons, List.countP_map]
            have hc2 : List.countP ((fun x => inSpan x (m.landed_slot + 1)) ∘ Prod.fst) pl
                = List.countP (fun q => inSpan q.1 (m.landed_slot + 1)) pl := rfl
            rw [hc2]
            simp [hin_m]
            omega
          have hsmall := hhist (m.landed_slot + 1)
          omega
    obtain ⟨d, hfd⟩ := hfind
    have hdD : d < D := List.mem_range.mp (List.mem_of_find?_eq_some hfd)
    have hnotocc : occupiedAtDepth pl m d = false := by
      have h2 := List.find?_some hfd
      simpa using h2
    have happ : (pl ++ [(m, d)]).map Prod.fst = pl.map Prod.fst ++ [m] := by simp
    have hsame : (pl ++ [(m, d)]).map Prod.fst ++ rest2 = pl.map Prod.fst ++ m :: rest2 := by
      rw [happ, List.append_assoc]
      rfl
    have hsort2 : List.Pairwise (fun a b => b.landed_slot ≤ a.landed_slot)
        ((pl ++ [(m, d)]).map Prod.fst ++ rest2) := by
      rw [hsame]; exact hsort
    have hhist2 : ∀ s, histCount ((pl ++ [(m, d)]).map Prod.fst ++ rest2) s ≤ D := by
      intro s; rw [hsame]; exact hhist s
    have hdep2 : ∀ q ∈ pl ++ [(m, d)], q.2 < D := by
      intro q hq
      rcases List.mem_append.mp hq with h2 | h2
      · exact hdep q h2
      · rcases List.mem_singleton.mp h2 with rfl
        exact hdD
    have hconf2 : (pl ++ [(m, d)]).Pairwise noConflict := by
      rw [List.pairwise_append]
      refine ⟨hconf, List.pairwise_singleton _ _, ?_⟩
      intro q hq q2 hq2
      rcases List.mem_singleton.mp hq2 with rfl
      intro hdeq
      cases hx : spansOverlap q.1 m with
      | false => rfl
      | true =>
        have hocc : occupiedAtDepth pl m d = true :=
          (occupied_iff pl m d).mpr ⟨q, hq, hdeq, hx⟩
        rw [hnotocc] at hocc
        exact Bool.noConfusion hocc
    obtain ⟨pl2, hrun, hmap, hdep3, hconf3⟩ := ih (pl ++ [(m, d)]) hsort2 hhist2 hdep2 hconf2
    refine ⟨pl2, ?_, ?_, hdep3, hconf3⟩
    · show packLoop D (m :: rest2) pl = some pl2
      unfold packLoop
      rw [hfd]
      exact hrun
    · rw [hmap, hsame]

/-- C2: whenever the per-slot concurrency histogram of the extracted metas
has maximum `D`, the greedy first-fit placement completes (the
`assert!(depth < D)` is unreachable), places every span at a depth strictly
below `D`, and never puts two overlapping spans at the same depth. -/
theorem claim_C2 : ∀ (ms : List VoteMeta) (D : Nat),
    maxValue (buildHist ms) = some D →
    ∃ pl, packAll D ms = some pl ∧
      pl.map Prod.fst = sortSpans ms ∧
      (∀ q ∈ pl, q.2 < D) ∧
      pl.Pairwise noConflict := by
  intro ms D hmax
  obtain ⟨hbound, hpos⟩ := maxValue_bounds ms D hmax
  have hsorted := sorted_sortSpans ms
  have hhist : ∀ s, histCount (sortSpans ms) s ≤ D := by
    intro s
    unfold histCount sortSpans
    rw [(List.perm_insertionSort _ ms).countP_eq]
    exact hbound s
  obtain ⟨pl, h1, h2, h3, h4⟩ :=
    packLoop_go D hpos (sortSpans ms) [] (by simpa using hsorted)
      (by simpa using hhist) (by simp) List.Pairwise.nil
  refine ⟨pl, ?_, by simpa using h2, h3, h4⟩
  unfold packAll
  exact h1

/-- Witness for C2 at the spec's two-span scenario (histogram maximum 2). -/
theorem claim_C2_witness :
    maxValue (buildHist [mA, mB]) = some 2 ∧
    ∃ pl, packAll 2 [mA, mB] = some pl ∧
      pl.map Prod.fst = sortSpans [mA, mB] ∧
      (∀ q ∈ pl, q.2 < 2) ∧
      pl.Pairwise noConflict :=
  ⟨by decide, claim_C2 [mA, mB] 2 (by decide)⟩
